import Mathlib

/-!
Shallow embedding of the sampling and bounded-history engine of
`txspy/objectbrowser.py`: the `RingBuffer` class and the merge / prune /
timestamp algorithm of `ObjectBrowser.updateStats`, together with the
tick driver (`LoopingCall` wrapping `updateStats` in `safeCall`).
-/

/-- Embedding of the `RingBuffer` class: fields `_maxSize` and `_collection`
(a `collections.deque`, held here as a list with the oldest element first). -/
structure RingBuffer (α : Type) where
  maxSize : Nat
  collection : List α
deriving DecidableEq, Repr

/-- Embedding of `RingBuffer.append`: push `x` on the newest end, then pop one
element from the oldest end when the length exceeds `_maxSize`. -/
def RingBuffer.append {α : Type} (b : RingBuffer α) (x : α) : RingBuffer α :=
  let c := b.collection ++ [x]
  if b.maxSize < c.length then { b with collection := c.tail }
  else { b with collection := c }

/-- Embedding of `RingBuffer.extend`, which delegates straight to
`deque.extend` and performs no eviction (the source carries a TODO noting this
is unsafe when called with more than `_maxSize` elements). -/
def RingBuffer.extend {α : Type} (b : RingBuffer α) (xs : List α) : RingBuffer α :=
  { b with collection := b.collection ++ xs }

/-- Embedding of `RingBuffer.__init__`: `assert size > 0`, then an empty
deque; a non-positive `size` fails the assertion, modelled as `none`. -/
def mkRingBuffer (size : Int) : Option (RingBuffer Nat) :=
  if 0 < size then some { maxSize := size.toNat, collection := [] } else none

/-- Repeated `RingBuffer.append`, one call per element of `xs`, in order. -/
def appendAll (b : RingBuffer Nat) (xs : List Nat) : RingBuffer Nat :=
  xs.foldl RingBuffer.append b

/-- The `_history` dict of `ObjectBrowser` (type name to sample history), a
Python dict with unique keys, held as an association list. -/
abbrev HistMap : Type := List (String × RingBuffer Nat)

/-- Dictionary lookup, as in `self._history.get(typeName, None)`. -/
def lookupH (h : HistMap) (k : String) : Option (RingBuffer Nat) :=
  match h with
  | [] => none
  | (k2, b) :: rest => if k2 = k then some b else lookupH rest k

/-- Dictionary write `self._history[typeName] = buffer`; it also models
in-place mutation of an already registered buffer: replace the value at an
existing key, or add the binding at the end. -/
def updateH (h : HistMap) (k : String) (b : RingBuffer Nat) : HistMap :=
  match h with
  | [] => [(k, b)]
  | (k2, b2) :: rest =>
    if k2 = k then (k2, b) :: rest else (k2, b2) :: updateH rest k b

/-- One iteration of the first loop of `ObjectBrowser.updateStats`: look the
type's history up; when absent, create a `RingBuffer(sampleHistorySize)` and
zero-fill it with `len(self.timestamps)` zeros; then append this tick's
count. -/
def mergeOne (C nts : Nat) (h : HistMap) (k : String) (c : Nat) : HistMap :=
  match lookupH h k with
  | none =>
      updateH h k ((RingBuffer.extend { maxSize := C, collection := [] }
        (List.replicate nts 0)).append c)
  | some b => updateH h k (b.append c)

/-- The first loop of `updateStats`, over all census groups in order. -/
def mergeGroups (C nts : Nat) (h : HistMap) : List (String × Nat) → HistMap
  | [] => h
  | (k, c) :: rest => mergeGroups C nts (mergeOne C nts h k c) rest

/-- The zero-append of the second loop of `updateStats`: a tracked type whose
name is not in `objectTypeSet` gets a `0` appended; a type in the census is
left as the first loop produced it. -/
def postZero (censusKeys : List String) (p : String × RingBuffer Nat) :
    String × RingBuffer Nat :=
  if p.1 ∈ censusKeys then p else (p.1, p.2.append 0)

/-- The prune test `all(s == 0 for s in samples)` of `updateStats`. -/
def allZero (b : RingBuffer Nat) : Bool :=
  b.collection.all (fun v => v == 0)

/-- The object-browser state that `updateStats` mutates: the `_history` dict
and the `_timestamps` ring buffer. -/
structure Store where
  history : HistMap
  timestamps : RingBuffer Nat
deriving DecidableEq

/-- Embedding of one run of `ObjectBrowser.updateStats`, taking the census
(the `(typeName, count)` groups `itertools.groupby` produces from the sorted
type names of `gc.get_objects()`) as input: merge the counts, append a zero
for every tracked type absent from the census, prune all-zero histories (the
second loop runs over a snapshot `self.history.items()`, appending and testing
per item, which equals this map-then-filter), then append the timestamp. -/
def updateStats (C : Nat) (census : List (String × Nat)) (now : Nat)
    (s : Store) : Store :=
  let censusKeys := census.map Prod.fst
  let h1 := mergeGroups C s.timestamps.collection.length s.history census
  let h2 := (h1.map (postZero censusKeys)).filter (fun p => !(allZero p.2))
  { history := h2, timestamps := s.timestamps.append now }

/-- Embedding of `itertools.groupby` over the sorted type-name list combined
with `count`: run-length groups `(typeName, count)` of adjacent equal names. -/
def groupCounts : List String → List (String × Nat)
  | [] => []
  | x :: xs =>
    match groupCounts xs with
    | [] => [(x, 1)]
    | (y, n) :: rest =>
      if x = y then (y, n + 1) :: rest else (x, 1) :: (y, n) :: rest

/-- The store `startService` creates: an empty `_history` dict and an empty
timestamp `RingBuffer(sampleHistorySize)`. -/
def emptyStore (C : Nat) : Store :=
  { history := [], timestamps := { maxSize := C, collection := [] } }

/-- One scheduled tick, `safeCall(self.updateStats, ...)`: `none` models a
census failure (an exception out of `gc.collect()` / `gc.get_objects()` /
the grouping, all of which precede every store mutation in `updateStats`, so
the caught exception leaves the store untouched); `some census` is a
successful tick. -/
def tick (C : Nat) (censusResult : Option (List (String × Nat))) (now : Nat)
    (s : Store) : Store :=
  match censusResult with
  | none => s
  | some census => updateStats C census now s

/-- A run of scheduled ticks, oldest first. -/
def runTicks (C : Nat) : List (Option (List (String × Nat)) × Nat) → Store → Store
  | [], s => s
  | (c, t) :: rest, s => runTicks C rest (tick C c t s)

/-- Well-formedness of the store between ticks: the timestamp buffer has the
configured capacity and respects it, the dict keys are unique, and every
tracked history has the configured capacity and the same length as the
timestamp history (the invariant asserted at the end of `updateStats`). -/
def Store.wf (C : Nat) (s : Store) : Prop :=
  s.timestamps.maxSize = C ∧
  s.timestamps.collection.length ≤ C ∧
  (s.history.map Prod.fst).Nodup ∧
  ∀ p ∈ s.history, p.2.maxSize = C ∧
    p.2.collection.length = s.timestamps.collection.length

instance (C : Nat) (s : Store) : Decidable (Store.wf C s) := by
  unfold Store.wf; infer_instance

theorem append_maxSize {α : Type} (b : RingBuffer α) (x : α) :
    (b.append x).maxSize = b.maxSize := by
  dsimp only [RingBuffer.append]
  split <;> rfl

theorem append_length (b : RingBuffer Nat) (x : Nat)
    (hb : b.collection.length ≤ b.maxSize) :
    (b.append x).collection.length = min (b.collection.length + 1) b.maxSize := by
  dsimp only [RingBuffer.append]
  split <;> rename_i h <;> simp [List.length_tail] at h ⊢ <;> omega

theorem append_collection (b : RingBuffer Nat) (x : Nat)
    (hb : b.collection.length + 1 ≤ b.maxSize) :
    (b.append x).collection = b.collection ++ [x] := by
  dsimp only [RingBuffer.append]
  split <;> rename_i h <;> simp at h ⊢
  omega

theorem append_collection_full (b : RingBuffer Nat) (x : Nat)
    (hb : b.maxSize ≤ b.collection.length) :
    (b.append x).collection = (b.collection ++ [x]).tail := by
  dsimp only [RingBuffer.append]
  split
  · rfl
  · rename_i h
    exfalso
    simp at h
    omega

theorem drop_tail_append {α : Type} (l xs : List α) (n : Nat) (hl : l ≠ []) :
    (l.tail ++ xs).drop n = (l ++ xs).drop (n + 1) := by
  cases l with
  | nil => exact absurd rfl hl
  | cons a as => simp [List.drop_succ_cons]

theorem appendAll_spec (xs : List Nat) : ∀ b : RingBuffer Nat,
    b.collection.length ≤ b.maxSize →
    (appendAll b xs).maxSize = b.maxSize ∧
    (appendAll b xs).collection =
      (b.collection ++ xs).drop (b.collection.length + xs.length - b.maxSize) := by
  induction xs with
  | nil =>
    intro b hb
    refine ⟨rfl, ?_⟩
    simp only [appendAll, List.foldl_nil, List.append_nil, List.length_nil,
      Nat.add_zero, Nat.sub_eq_zero_of_le hb, List.drop_zero]
  | cons x xs ih =>
    intro b hb
    have hmax := append_maxSize b x
    have hlen := append_length b x hb
    have hb2 : (b.append x).collection.length ≤ (b.append x).maxSize := by
      rw [hmax, hlen]; omega
    obtain ⟨ihmax, ihcol⟩ := ih (b.append x) hb2
    have hstep : appendAll b (x :: xs) = appendAll (b.append x) xs := rfl
    constructor
    · rw [hstep, ihmax, hmax]
    · rw [hstep, ihcol, hmax]
      by_cases hc : b.collection.length + 1 ≤ b.maxSize
      · rw [append_collection b x hc]
        have e1 : b.collection ++ [x] ++ xs = b.collection ++ x :: xs := by simp
        have e2 : (b.collection ++ [x]).length + xs.length - b.maxSize
            = b.collection.length + (x :: xs).length - b.maxSize := by
          simp only [List.length_append, List.length_cons, List.length_nil]
          omega
        rw [e1, e2]
      · have hc2 : b.maxSize ≤ b.collection.length := by omega
        rw [append_collection_full b x hc2]
        have e3 : (b.collection ++ [x]).tail.length = b.collection.length := by
          simp [List.length_tail]
        have e1 : b.collection ++ [x] ++ xs = b.collection ++ x :: xs := by simp
        have e4 : b.collection.length + xs.length - b.maxSize + 1
            = b.collection.length + (x :: xs).length - b.maxSize := by
          simp only [List.length_cons]
          omega
        rw [e3, drop_tail_append _ _ _ (by simp), e1, e4]

/-- C2: for a buffer of capacity `C > 0` and any sequence of `append` calls,
the buffer's length never exceeds `C`, and after more than `C` appends the
buffer, read oldest to newest, holds exactly the last `C` appended values in
append order. -/
theorem ring_invariant (C : Nat) (hC : 0 < C) (xs : List Nat) :
    (appendAll { maxSize := C, collection := [] } xs).collection.length ≤ C ∧
    (C < xs.length →
      (appendAll { maxSize := C, collection := [] } xs).collection
        = xs.drop (xs.length - C)) := by
  obtain ⟨hmax, hcol⟩ :=
    appendAll_spec xs { maxSize := C, collection := [] } (by simp)
  simp only [List.nil_append, List.length_nil, Nat.zero_add] at hcol
  constructor
  · rw [hcol]
    simp only [List.length_drop]
    omega
  · intro hlt
    exact hcol

/-- C2 witness: capacity 3 with appends 1,2,3,4,5 keeps at most 3 elements and
ends holding exactly [3,4,5]. -/
theorem ring_invariant_example :
    (appendAll { maxSize := 3, collection := [] } [1, 2, 3, 4, 5]).collection.length ≤ 3 ∧
    (appendAll { maxSize := 3, collection := [] } [1, 2, 3, 4, 5]).collection = [3, 4, 5] :=
  ⟨(ring_invariant 3 (by decide) [1, 2, 3, 4, 5]).1,
   (ring_invariant 3 (by decide) [1, 2, 3, 4, 5]).2 (by decide)⟩

/-- C3 counterexample: `RingBuffer.extend` applies no eviction, so extending
an empty buffer of capacity 3 with the five values 1,2,3,4,5 leaves a buffer
of length 5, violating the claimed bound `length ≤ C`. -/
theorem extend_eviction_cex :
    ¬ ((RingBuffer.extend { maxSize := 3, collection := ([] : List Nat) }
      [1, 2, 3, 4, 5]).collection.length ≤ 3) := by
  decide

/-- C3 amended: `extend(values)` appends each element of `values` in order
but applies no eviction (it delegates to `deque.extend`), so the resulting
contents are the old contents followed by `values` and the length is the sum
of both lengths; the bound `length ≤ C` therefore holds after an `extend`
only when that sum is at most `C` (as in the store's only use, zero-filling a
fresh empty buffer with at most `C` zeros). -/
theorem extend_appends_without_eviction (b : RingBuffer Nat) (xs : List Nat) :
    (b.extend xs).collection = b.collection ++ xs ∧
    (b.extend xs).collection.length = b.collection.length + xs.length ∧
    (b.collection.length + xs.length ≤ b.maxSize →
      (b.extend xs).collection.length ≤ b.maxSize) := by
  refine ⟨rfl, by simp [RingBuffer.extend], fun h => ?_⟩
  simpa [RingBuffer.extend] using h

/-- C3 witness: extending an empty buffer of capacity 3 with two zeros gives
contents [0,0], length 2, within the capacity bound. -/
theorem extend_appends_without_eviction_example :
    (RingBuffer.extend { maxSize := 3, collection := ([] : List Nat) } [0, 0]).collection
      = [] ++ [0, 0] ∧
    (RingBuffer.extend { maxSize := 3, collection := ([] : List Nat) } [0, 0]).collection.length
      = 0 + 2 ∧
    (RingBuffer.extend { maxSize := 3, collection := ([] : List Nat) } [0, 0]).collection.length ≤ 3 :=
  ⟨(extend_appends_without_eviction { maxSize := 3, collection := [] } [0, 0]).1,
   (extend_appends_without_eviction { maxSize := 3, collection := [] } [0, 0]).2.1,
   (extend_appends_without_eviction { maxSize := 3, collection := [] } [0, 0]).2.2 (by decide)⟩

/-- C8: constructing a ring buffer with non-positive capacity fails the
`assert size > 0` immediately (no silent default), and a positive capacity
yields a buffer with exactly that capacity and no contents. -/
theorem mkRingBuffer_config (size : Int) :
    (size ≤ 0 → mkRingBuffer size = none) ∧
    (0 < size →
      mkRingBuffer size = some { maxSize := size.toNat, collection := [] }) := by
  refine ⟨fun h => ?_, fun h => ?_⟩
  · unfold mkRingBuffer
    rw [if_neg (by omega)]
  · unfold mkRingBuffer
    rw [if_pos h]

/-- C8 witness: capacity -1 fails construction, capacity 2 succeeds with
capacity exactly 2 and an empty collection. -/
theorem mkRingBuffer_config_example :
    mkRingBuffer (-1) = none ∧
    mkRingBuffer 2 = some { maxSize := (2 : Int).toNat, collection := [] } :=
  ⟨(mkRingBuffer_config (-1)).1 (by decide), (mkRingBuffer_config 2).2 (by decide)⟩

/-- The buffer that `mergeOne` stores for a census key: the previous history
when one exists, otherwise a freshly zero-filled buffer, with this tick's
count appended. -/
def mergedBuf (C nts : Nat) (prev : Option (RingBuffer Nat)) (c : Nat) :
    RingBuffer Nat :=
  (match prev with
   | none => RingBuffer.extend { maxSize := C, collection := [] }
       (List.replicate nts 0)
   | some b => b).append c

theorem mergeOne_eq (C nts : Nat) (h : HistMap) (k : String) (c : Nat) :
    mergeOne C nts h k c = updateH h k (mergedBuf C nts (lookupH h k) c) := by
  unfold mergeOne mergedBuf
  cases lookupH h k <;> rfl

theorem lookupH_updateH_self (h : HistMap) (k : String) (b : RingBuffer Nat) :
    lookupH (updateH h k b) k = some b := by
  induction h with
  | nil => simp [updateH, lookupH]
  | cons p rest ih =>
    obtain ⟨k2, b2⟩ := p
    unfold updateH
    by_cases hk : k2 = k
    · simp [hk, lookupH]
    · simp [hk, lookupH, ih]

theorem lookupH_updateH_ne (h : HistMap) (k k2 : String) (b : RingBuffer Nat)
    (hne : k2 ≠ k) : lookupH (updateH h k b) k2 = lookupH h k2 := by
  induction h with
  | nil => simp [updateH, lookupH, Ne.symm hne]
  | cons p rest ih =>
    obtain ⟨k3, b3⟩ := p
    unfold updateH
    by_cases hk : k3 = k
    · subst hk
      simp [lookupH, Ne.symm hne]
    · simp only [if_neg hk, lookupH]
      by_cases hk2 : k3 = k2
      · simp [hk2]
      · simp [hk2, ih]

theorem updateH_keys (h : HistMap) (k : String) (b : RingBuffer Nat) :
    (updateH h k b).map Prod.fst
      = if k ∈ h.map Prod.fst then h.map Prod.fst
        else h.map Prod.fst ++ [k] := by
  induction h with
  | nil => simp [updateH]
  | cons p rest ih =>
    obtain ⟨k2, b2⟩ := p
    unfold updateH
    by_cases hk : k2 = k
    · subst hk
      simp
    · simp only [if_neg hk, List.map_cons, ih]
      by_cases hm : k ∈ rest.map Prod.fst
      · simp [hm, Ne.symm hk]
      · simp [hm, Ne.symm hk]

theorem lookupH_eq_none_iff (h : HistMap) (k : String) :
    lookupH h k = none ↔ k ∉ h.map Prod.fst := by
  induction h with
  | nil => simp [lookupH]
  | cons p rest ih =>
    obtain ⟨k2, b2⟩ := p
    unfold lookupH
    by_cases hk : k2 = k
    · simp [hk]
    · rw [if_neg hk, ih]
      simp only [List.map_cons, List.mem_cons, not_or]
      constructor
      · intro hh
        exact ⟨fun he => hk he.symm, hh⟩
      · intro hh
        exact hh.2

theorem lookupH_of_mem (h : HistMap) (p : String × RingBuffer Nat)
    (hnd : (h.map Prod.fst).Nodup) (hp : p ∈ h) : lookupH h p.1 = some p.2 := by
  induction h with
  | nil => cases hp
  | cons q rest ih =>
    obtain ⟨k2, b2⟩ := q
    simp only [List.map_cons, List.nodup_cons] at hnd
    rcases List.mem_cons.mp hp with heq | hmem
    · subst heq
      simp [lookupH]
    · unfold lookupH
      by_cases hk : k2 = p.1
      · exfalso
        apply hnd.1
        rw [hk]
        exact List.mem_map_of_mem Prod.fst hmem
      · simp [hk]
        exact ih hnd.2 hmem

theorem mem_of_lookupH (h : HistMap) (k : String) (b : RingBuffer Nat)
    (hl : lookupH h k = some b) : (k, b) ∈ h := by
  induction h with
  | nil => cases hl
  | cons q rest ih =>
    obtain ⟨k2, b2⟩ := q
    unfold lookupH at hl
    by_cases hk : k2 = k
    · rw [if_pos hk] at hl
      injection hl with hl
      subst hk
      subst hl
      exact List.mem_cons_self _ _
    · rw [if_neg hk] at hl
      exact List.mem_cons_of_mem _ (ih hl)

theorem mergeOne_keys_nodup (C nts : Nat) (h : HistMap) (k : String) (c : Nat)
    (hnd : (h.map Prod.fst).Nodup) :
    ((mergeOne C nts h k c).map Prod.fst).Nodup := by
  rw [mergeOne_eq, updateH_keys]
  by_cases hm : k ∈ h.map Prod.fst
  · simp [hm, hnd]
  · simp [hm, List.nodup_append, hnd]

theorem mergeGroups_keys_nodup (C nts : Nat) :
    ∀ (cs : List (String × Nat)) (h : HistMap),
    (h.map Prod.fst).Nodup → ((mergeGroups C nts h cs).map Prod.fst).Nodup := by
  intro cs
  induction cs with
  | nil => intro h hnd; exact hnd
  | cons p rest ih =>
    intro h hnd
    obtain ⟨k, c⟩ := p
    exact ih _ (mergeOne_keys_nodup C nts h k c hnd)

theorem lookupH_mergeGroups_notMem (C nts : Nat) :
    ∀ (cs : List (String × Nat)) (h : HistMap) (k : String),
    k ∉ cs.map Prod.fst →
    lookupH (mergeGroups C nts h cs) k = lookupH h k := by
  intro cs
  induction cs with
  | nil => intro h k _; rfl
  | cons p rest ih =>
    intro h k hk
    obtain ⟨k2, c⟩ := p
    simp only [List.map_cons, List.mem_cons, not_or] at hk
    show lookupH (mergeGroups C nts (mergeOne C nts h k2 c) rest) k = lookupH h k
    rw [ih _ _ hk.2, mergeOne_eq, lookupH_updateH_ne _ _ _ _ hk.1]

theorem lookupH_mergeGroups_mem (C nts : Nat) :
    ∀ (cs : List (String × Nat)) (h : HistMap) (k : String) (c : Nat),
    (cs.map Prod.fst).Nodup → (k, c) ∈ cs →
    lookupH (mergeGroups C nts h cs) k
      = some (mergedBuf C nts (lookupH h k) c) := by
  intro cs
  induction cs with
  | nil => intro h k c _ hm; cases hm
  | cons p rest ih =>
    intro h k c hnd hm
    obtain ⟨k2, c2⟩ := p
    simp only [List.map_cons, List.nodup_cons] at hnd
    show lookupH (mergeGroups C nts (mergeOne C nts h k2 c2) rest) k
      = some (mergedBuf C nts (lookupH h k) c)
    rcases List.mem_cons.mp hm with heq | hmem
    · obtain ⟨rfl, rfl⟩ := Prod.mk.injEq k c k2 c2 ▸ heq
      have hk : k ∉ rest.map Prod.fst := hnd.1
      rw [lookupH_mergeGroups_notMem C nts rest _ k hk, mergeOne_eq,
        lookupH_updateH_self]
    · have hk2 : k2 ≠ k := by
        intro hkk
        subst hkk
        exact hnd.1 (List.mem_map_of_mem Prod.fst hmem)
      have := ih (mergeOne C nts h k2 c2) k c hnd.2 hmem
      rw [mergeOne_eq, lookupH_updateH_ne h k2 k _ (Ne.symm hk2)] at this
      rw [mergeOne_eq]
      exact this

theorem postZero_eq (ck : List String) (p : String × RingBuffer Nat) :
    postZero ck p = (p.1, if p.1 ∈ ck then p.2 else p.2.append 0) := by
  unfold postZero
  split <;> rename_i hc <;> simp [hc]

theorem postZero_fst (ck : List String) (p : String × RingBuffer Nat) :
    (postZero ck p).1 = p.1 := by
  rw [postZero_eq]

theorem map_postZero_keys (ck : List String) (h : HistMap) :
    (h.map (postZero ck)).map Prod.fst = h.map Prod.fst := by
  induction h with
  | nil => rfl
  | cons p rest ih => simp [postZero_fst, ih]

theorem lookupH_map_postZero (ck : List String) (h : HistMap) (k : String) :
    lookupH (h.map (postZero ck)) k
      = (lookupH h k).map (fun b => if k ∈ ck then b else b.append 0) := by
  induction h with
  | nil => rfl
  | cons p rest ih =>
    obtain ⟨k2, b2⟩ := p
    simp only [List.map_cons, postZero_eq]
    show (if k2 = k then some (if k2 ∈ ck then b2 else b2.append 0)
      else lookupH (rest.map (postZero ck)) k) = _
    by_cases hk : k2 = k
    · subst hk
      simp [lookupH]
    · have hstep : lookupH ((k2, b2) :: rest) k = lookupH rest k := by
        show (if k2 = k then some b2 else lookupH rest k) = lookupH rest k
        rw [if_neg hk]
      simp only [if_neg hk, ih, hstep]

theorem lookupH_none_of_not_mem (h : HistMap) (k : String)
    (hm : k ∉ h.map Prod.fst) : lookupH h k = none :=
  (lookupH_eq_none_iff h k).mpr hm

theorem keys_filter_sub (g : String × RingBuffer Nat → Bool) (h : HistMap) :
    ((h.filter g).map Prod.fst) ⊆ h.map Prod.fst :=
  List.Sublist.subset (List.Sublist.map Prod.fst (List.filter_sublist h))

theorem lookupH_filter (g : String × RingBuffer Nat → Bool) :
    ∀ (h : HistMap) (k : String) (b : RingBuffer Nat),
    (h.map Prod.fst).Nodup → lookupH h k = some b →
    lookupH (h.filter g) k = if g (k, b) then some b else none := by
  intro h
  induction h with
  | nil => intro k b _ hl; cases hl
  | cons p rest ih =>
    intro k b hnd hl
    obtain ⟨k2, b2⟩ := p
    simp only [List.map_cons, List.nodup_cons] at hnd
    unfold lookupH at hl
    by_cases hk : k2 = k
    · rw [if_pos hk] at hl
      injection hl with hl
      subst hk
      subst hl
      rw [List.filter_cons]
      by_cases hg : g (k2, b2)
      · rw [if_pos hg, if_pos hg]
        unfold lookupH
        rw [if_pos rfl]
      · rw [if_neg hg, if_neg hg]
        rw [lookupH_none_of_not_mem]
        intro hmem
        exact hnd.1 (keys_filter_sub g rest hmem)
    · rw [if_neg hk] at hl
      rw [List.filter_cons]
      by_cases hg : g (k2, b2)
      · rw [if_pos hg]
        unfold lookupH
        rw [if_neg hk]
        exact ih k b hnd.2 hl
      · rw [if_neg hg]
        exact ih k b hnd.2 hl

theorem mergedBuf_maxSize (C nts : Nat) (prev : Option (RingBuffer Nat)) (c : Nat)
    (hprev : ∀ b, prev = some b → b.maxSize = C) :
    (mergedBuf C nts prev c).maxSize = C := by
  unfold mergedBuf
  cases prev with
  | none =>
    rw [append_maxSize]
    rfl
  | some b =>
    rw [append_maxSize]
    exact hprev b rfl

theorem mergedBuf_length (C nts : Nat) (prev : Option (RingBuffer Nat)) (c : Nat)
    (hn : nts ≤ C)
    (hprev : ∀ b, prev = some b → b.maxSize = C ∧ b.collection.length = nts) :
    (mergedBuf C nts prev c).collection.length = min (nts + 1) C := by
  unfold mergedBuf
  cases prev with
  | none =>
    rw [append_length]
    · simp [RingBuffer.extend]
    · simpa [RingBuffer.extend] using hn
  | some b =>
    obtain ⟨hb1, hb2⟩ := hprev b rfl
    rw [append_length _ _ (by rw [hb1, hb2]; exact hn), hb1, hb2]

theorem updateStats_wf (C : Nat) (census : List (String × Nat)) (now : Nat)
    (s : Store) (hwf : Store.wf C s) (hnd : (census.map Prod.fst).Nodup) :
    Store.wf C (updateStats C census now s) := by
  obtain ⟨htmax, htlen, hkeys, hhist⟩ := hwf
  have h1nd : ((mergeGroups C s.timestamps.collection.length s.history
      census).map Prod.fst).Nodup :=
    mergeGroups_keys_nodup C s.timestamps.collection.length census s.history hkeys
  have hentry : ∀ q ∈ mergeGroups C s.timestamps.collection.length
      s.history census,
      q.2.maxSize = C ∧
      (q.1 ∈ census.map Prod.fst →
        q.2.collection.length = min (s.timestamps.collection.length + 1) C) ∧
      (q.1 ∉ census.map Prod.fst →
        q.2.collection.length = s.timestamps.collection.length) := by
    intro q hq
    have hl1 := lookupH_of_mem _ q h1nd hq
    by_cases hqc : q.1 ∈ census.map Prod.fst
    · obtain ⟨a, ha, hfa⟩ := List.mem_map.mp hqc
      obtain ⟨k, c⟩ := a
      simp only at hfa
      subst hfa
      have hl2 := lookupH_mergeGroups_mem C s.timestamps.collection.length
        census s.history q.1 c hnd ha
      have hq2 : some q.2
          = some (mergedBuf C s.timestamps.collection.length
              (lookupH s.history q.1) c) := by
        rw [← hl1, hl2]
      injection hq2 with hq2
      have hprev : ∀ b, lookupH s.history q.1 = some b →
          b.maxSize = C ∧ b.collection.length = s.timestamps.collection.length := by
        intro b hb
        exact hhist (q.1, b) (mem_of_lookupH _ _ _ hb)
      refine ⟨?_, fun _ => ?_, fun hq2c => absurd hqc hq2c⟩
      · rw [hq2]
        exact mergedBuf_maxSize C _ _ c (fun b hb => (hprev b hb).1)
      · rw [hq2]
        exact mergedBuf_length C _ _ c htlen hprev
    · rw [lookupH_mergeGroups_notMem C s.timestamps.collection.length
        census s.history q.1 hqc] at hl1
      have hmem := mem_of_lookupH _ _ _ hl1
      have hh := hhist (q.1, q.2) hmem
      exact ⟨hh.1, fun hc => absurd hc hqc, fun _ => hh.2⟩
  have htslen2 : (s.timestamps.append now).collection.length
      = min (s.timestamps.collection.length + 1) C := by
    rw [append_length _ _ (by rw [htmax]; exact htlen), htmax]
  refine ⟨?_, ?_, ?_, ?_⟩
  · show (s.timestamps.append now).maxSize = C
    rw [append_maxSize]
    exact htmax
  · show (s.timestamps.append now).collection.length ≤ C
    rw [htslen2]
    omega
  · show ((((mergeGroups C s.timestamps.collection.length s.history census).map
      (postZero (census.map Prod.fst))).filter
        (fun p => !(allZero p.2))).map Prod.fst).Nodup
    have hsub : List.Sublist
        ((((mergeGroups C s.timestamps.collection.length s.history
          census).map (postZero (census.map Prod.fst))).filter
            (fun p => !(allZero p.2))).map Prod.fst)
        (((mergeGroups C s.timestamps.collection.length s.history census).map
          (postZero (census.map Prod.fst))).map Prod.fst) :=
      List.Sublist.map Prod.fst (List.filter_sublist _)
    rw [map_postZero_keys] at hsub
    exact List.Nodup.sublist hsub h1nd
  · intro p hp
    have hp1 := (List.mem_filter.mp hp).1
    obtain ⟨q, hq, hpq⟩ := List.mem_map.mp hp1
    obtain ⟨hqmax, hqin, hqout⟩ := hentry q hq
    rw [postZero_eq] at hpq
    show p.2.maxSize = C ∧ p.2.collection.length
      = (s.timestamps.append now).collection.length
    rw [htslen2]
    by_cases hqc : q.1 ∈ census.map Prod.fst
    · rw [if_pos hqc] at hpq
      have hps : p.2 = q.2 := by rw [← hpq]
      rw [hps]
      exact ⟨hqmax, hqin hqc⟩
    · rw [if_neg hqc] at hpq
      have hps : p.2 = q.2.append 0 := by rw [← hpq]
      rw [hps, append_maxSize]
      refine ⟨hqmax, ?_⟩
      rw [append_length _ _ (by rw [hqmax]; exact (hqout hqc) ▸ htlen), hqmax,
        hqout hqc]

/-- Uniqueness of the group keys of one tick's census, which holds for the
groups `itertools.groupby` yields on a sorted list; `none` (a failed census)
carries no keys. -/
def censusKeysNodup (oc : Option (List (String × Nat))) : Prop :=
  ∀ cs, oc = some cs → (cs.map Prod.fst).Nodup

instance (oc : Option (List (String × Nat))) : Decidable (censusKeysNodup oc) :=
  match oc with
  | none => isTrue (fun cs h => by cases h)
  | some cs =>
    decidable_of_iff ((cs.map Prod.fst).Nodup)
      (by
        constructor
        · intro hh cs2 he
          injection he with he
          subst he
          exact hh
        · intro hh
          exact hh cs rfl)

theorem emptyStore_wf (C : Nat) : Store.wf C (emptyStore C) := by
  refine ⟨rfl, by simp [emptyStore], by simp [emptyStore], ?_⟩
  intro p hp
  exact absurd hp (List.not_mem_nil p)

theorem runTicks_wf (C : Nat) :
    ∀ (ticks : List (Option (List (String × Nat)) × Nat)) (s : Store),
    (∀ t ∈ ticks, censusKeysNodup t.1) → Store.wf C s →
    Store.wf C (runTicks C ticks s) := by
  intro ticks
  induction ticks with
  | nil => intro s _ hs; exact hs
  | cons t rest ih =>
    intro s hnd hs
    obtain ⟨oc, tm⟩ := t
    have hrest : ∀ t2 ∈ rest, censusKeysNodup t2.1 :=
      fun t2 ht2 => hnd t2 (List.mem_cons_of_mem _ ht2)
    cases oc with
    | none => exact ih _ hrest hs
    | some cs =>
      have hcs : (cs.map Prod.fst).Nodup :=
        hnd (some cs, tm) (List.mem_cons_self _ _) cs rfl
      exact ih _ hrest (updateStats_wf C cs tm s hs hcs)

/-- C1: after every completed tick of a run started from the empty store (the
state `startService` creates), the length of every tracked type's history in
`_history` equals the length of the shared `_timestamps` history — the
invariant the `assert` at the end of `updateStats` checks. -/
theorem alignment_invariant (C : Nat)
    (ticks : List (Option (List (String × Nat)) × Nat))
    (hnd : ∀ t ∈ ticks, censusKeysNodup t.1) :
    ∀ p ∈ (runTicks C ticks (emptyStore C)).history,
      p.2.collection.length
        = (runTicks C ticks (emptyStore C)).timestamps.collection.length := by
  intro p hp
  exact ((runTicks_wf C ticks (emptyStore C) hnd (emptyStore_wf C)).2.2.2 p hp).2

/-- C1 witness: one successful tick with census group ("a", 1) at time 5
from the empty store of capacity 3 leaves history "a" of length 1 and a
timestamp history of length 1. -/
theorem alignment_invariant_example :
    ("a", ({ maxSize := 3, collection := [1] } : RingBuffer Nat)) ∈
      (runTicks 3 [(some [("a", 1)], 5)] (emptyStore 3)).history ∧
    (({ maxSize := 3, collection := [1] } : RingBuffer Nat)).collection.length
      = (runTicks 3 [(some [("a", 1)], 5)] (emptyStore 3)).timestamps.collection.length :=
  ⟨by decide,
   alignment_invariant 3 [(some [("a", 1)], 5)] (by decide)
     ("a", { maxSize := 3, collection := [1] }) (by decide)⟩

theorem ringBuffer_eq (b : RingBuffer Nat) (m : Nat) (l : List Nat)
    (h1 : b.maxSize = m) (h2 : b.collection = l) :
    b = { maxSize := m, collection := l } := by
  cases b with
  | mk m2 col =>
    simp only at h1 h2
    subst h1
    subst h2
    rfl

/-- C4: a type first seen in the census at a tick with `n` prior timestamps,
`n < C`, ends the tick with a freshly created history of exactly `n` zeros
followed by this tick's count — length `n + 1`. -/
theorem new_type_zero_fill (C : Nat) (census : List (String × Nat)) (now : Nat)
    (s : Store) (k : String) (c : Nat)
    (hwf : Store.wf C s) (hnd : (census.map Prod.fst).Nodup)
    (hmem : (k, c) ∈ census) (hnew : lookupH s.history k = none)
    (hc : 0 < c) (hlt : s.timestamps.collection.length < C) :
    lookupH (updateStats C census now s).history k
      = some { maxSize := C,
               collection :=
                 List.replicate s.timestamps.collection.length 0 ++ [c] } := by
  obtain ⟨htmax, htlen, hkeys, hhist⟩ := hwf
  have h1nd := mergeGroups_keys_nodup C s.timestamps.collection.length census
    s.history hkeys
  have hl1 := lookupH_mergeGroups_mem C s.timestamps.collection.length census
    s.history k c hnd hmem
  rw [hnew] at hl1
  have hbuf : mergedBuf C s.timestamps.collection.length none c
      = { maxSize := C,
          collection := List.replicate s.timestamps.collection.length 0 ++ [c] } := by
    apply ringBuffer_eq
    · unfold mergedBuf
      rw [append_maxSize]
      rfl
    · show (RingBuffer.append (RingBuffer.extend { maxSize := C, collection := [] }
        (List.replicate s.timestamps.collection.length 0)) c).collection = _
      rw [append_collection]
      · simp [RingBuffer.extend]
      · simp only [RingBuffer.extend, List.nil_append, List.length_replicate]
        omega
  rw [hbuf] at hl1
  have hmk : k ∈ census.map Prod.fst := List.mem_map_of_mem Prod.fst hmem
  have h2l : lookupH ((mergeGroups C s.timestamps.collection.length s.history
      census).map (postZero (census.map Prod.fst))) k
      = some { maxSize := C,
               collection :=
                 List.replicate s.timestamps.collection.length 0 ++ [c] } := by
    rw [lookupH_map_postZero, hl1]
    simp [hmk]
  have h2nd : (((mergeGroups C s.timestamps.collection.length s.history
      census).map (postZero (census.map Prod.fst))).map Prod.fst).Nodup := by
    rw [map_postZero_keys]
    exact h1nd
  have h3 := lookupH_filter (fun p => !(allZero p.2)) _ k _ h2nd h2l
  have hz : allZero { maxSize := C,
                      collection :=
                        List.replicate s.timestamps.collection.length 0 ++ [c] }
      = false := by
    unfold allZero
    simp only [List.all_append, List.all_cons, List.all_nil, Bool.and_true]
    have hcz : (c == 0) = false := by
      cases c with
      | zero => exact absurd hc (lt_irrefl 0)
      | succ m => rfl
    simp [hcz]
  simp only [hz, Bool.not_false, if_true] at h3
  show lookupH (((mergeGroups C s.timestamps.collection.length s.history
      census).map (postZero (census.map Prod.fst))).filter
        (fun p => !(allZero p.2))) k = _
  exact h3

/-- C5: after a tick's zero-appends, a type tracked after the merge step is
removed from the store exactly when every sample in its updated history is
zero, and otherwise retained with that history. -/
theorem prune_iff_all_zero (C : Nat) (census : List (String × Nat)) (now : Nat)
    (s : Store) (k : String) (b : RingBuffer Nat)
    (hkeys : (s.history.map Prod.fst).Nodup)
    (hb : lookupH (mergeGroups C s.timestamps.collection.length s.history
      census) k = some b) :
    lookupH (updateStats C census now s).history k
      = (if allZero (if k ∈ census.map Prod.fst then b else b.append 0)
         then none
         else some (if k ∈ census.map Prod.fst then b else b.append 0)) := by
  have h1nd := mergeGroups_keys_nodup C s.timestamps.collection.length census
    s.history hkeys
  have h2l : lookupH ((mergeGroups C s.timestamps.collection.length s.history
      census).map (postZero (census.map Prod.fst))) k
      = some (if k ∈ census.map Prod.fst then b else b.append 0) := by
    rw [lookupH_map_postZero, hb]
    rfl
  have h2nd : (((mergeGroups C s.timestamps.collection.length s.history
      census).map (postZero (census.map Prod.fst))).map Prod.fst).Nodup := by
    rw [map_postZero_keys]
    exact h1nd
  have h3 := lookupH_filter (fun p => !(allZero p.2)) _ k _ h2nd h2l
  show lookupH (((mergeGroups C s.timestamps.collection.length s.history
      census).map (postZero (census.map Prod.fst))).filter
        (fun p => !(allZero p.2))) k = _
  rw [h3]
  cases hz : allZero (if k ∈ census.map Prod.fst then b else b.append 0) <;>
    simp [hz]

/-- C6: a type tracked in the store but absent from this tick's census gets a
zero appended to its history (not an error), and stays in the store unless
that zero makes its whole window zero. -/
theorem absence_implicit_zero (C : Nat) (census : List (String × Nat))
    (now : Nat) (s : Store) (k : String) (b : RingBuffer Nat)
    (hkeys : (s.history.map Prod.fst).Nodup)
    (htr : lookupH s.history k = some b)
    (habs : k ∉ census.map Prod.fst) :
    lookupH ((mergeGroups C s.timestamps.collection.length s.history
      census).map (postZero (census.map Prod.fst))) k = some (b.append 0) ∧
    lookupH (updateStats C census now s).history k
      = (if allZero (b.append 0) then none else some (b.append 0)) := by
  have hl1 : lookupH (mergeGroups C s.timestamps.collection.length s.history
      census) k = some b := by
    rw [lookupH_mergeGroups_notMem C s.timestamps.collection.length census
      s.history k habs]
    exact htr
  have h1nd := mergeGroups_keys_nodup C s.timestamps.collection.length census
    s.history hkeys
  have h2l : lookupH ((mergeGroups C s.timestamps.collection.length s.history
      census).map (postZero (census.map Prod.fst))) k = some (b.append 0) := by
    rw [lookupH_map_postZero, hl1]
    simp [habs]
  have h2nd : (((mergeGroups C s.timestamps.collection.length s.history
      census).map (postZero (census.map Prod.fst))).map Prod.fst).Nodup := by
    rw [map_postZero_keys]
    exact h1nd
  have h3 := lookupH_filter (fun p => !(allZero p.2)) _ k _ h2nd h2l
  refine ⟨h2l, ?_⟩
  show lookupH (((mergeGroups C s.timestamps.collection.length s.history
      census).map (postZero (census.map Prod.fst))).filter
        (fun p => !(allZero p.2))) k = _
  rw [h3]
  cases hz : allZero (b.append 0) <;> simp [hz]

/-- C7: a failed census leaves the store exactly as it was (every store
mutation in `updateStats` happens after the census is obtained, and
`safeCall` catches the exception without touching the store), so a following
successful tick produces the same state as applying its merge alone to the
pre-failure state. -/
theorem tick_resilience (C : Nat) (census : List (String × Nat))
    (tn tn1 : Nat) (s : Store) :
    tick C none tn s = s ∧
    tick C (some census) tn1 (tick C none tn s) = updateStats C census tn1 s :=
  ⟨rfl, rfl⟩

theorem groupCounts_pos : ∀ (l : List String), ∀ q ∈ groupCounts l, 0 < q.2 := by
  intro l
  induction l with
  | nil => intro q hq; cases hq
  | cons x xs ih =>
    intro q hq
    unfold groupCounts at hq
    cases hgc : groupCounts xs with
    | nil =>
      rw [hgc] at hq
      simp only [List.mem_singleton] at hq
      subst hq
      exact Nat.one_pos
    | cons p2 rest =>
      obtain ⟨y, n⟩ := p2
      rw [hgc] at hq
      dsimp only at hq
      by_cases hxy : x = y
      · rw [if_pos hxy] at hq
        rcases List.mem_cons.mp hq with heq | hmem
        · subst heq
          exact Nat.succ_pos n
        · exact ih q (hgc ▸ List.mem_cons_of_mem _ hmem)
      · rw [if_neg hxy] at hq
        rcases List.mem_cons.mp hq with heq | hq2
        · subst heq
          exact Nat.one_pos
        · rcases List.mem_cons.mp hq2 with heq | hmem
          · subst heq
            exact ih (y, n) (hgc ▸ List.mem_cons_self _ _)
          · exact ih q (hgc ▸ List.mem_cons_of_mem _ hmem)

/-- C10: immediately after every completed tick, every history still present
in the store holds at least one non-zero sample (the prune loop removes every
all-zero history), and every count the census grouping produces is positive
(`itertools.groupby` groups are non-empty), so a freshly created history
receives a non-zero sample on its creation tick. -/
theorem no_all_zero_history (C : Nat) (census : List (String × Nat))
    (now : Nat) (s : Store) (objects : List String) :
    (∀ p ∈ (updateStats C census now s).history,
      ∃ v ∈ p.2.collection, v ≠ 0) ∧
    (∀ q ∈ groupCounts objects, 0 < q.2) := by
  constructor
  · intro p hp
    have hp2 := (List.mem_filter.mp hp).2
    have hz : allZero p.2 = false := by
      cases h : allZero p.2
      · rfl
      · rw [h] at hp2
        cases hp2
    unfold allZero at hz
    rw [List.all_eq_false] at hz
    obtain ⟨v, hv, hvz⟩ := hz
    refine ⟨v, hv, ?_⟩
    simpa using hvz
  · exact groupCounts_pos objects

/-- C4 witness: capacity 10, four prior ticks recorded, type "Foo" first seen
with count 7: its history right after the tick is four zeros then 7. -/
theorem new_type_zero_fill_example :
    lookupH (updateStats 10 [("Foo", 7)] 5
        { history := [("old", { maxSize := 10, collection := [1, 1, 1, 1] })],
          timestamps := { maxSize := 10, collection := [1, 2, 3, 4] } }).history
        "Foo"
      = some { maxSize := 10, collection := List.replicate 4 0 ++ [7] } :=
  new_type_zero_fill 10 [("Foo", 7)] 5
    { history := [("old", { maxSize := 10, collection := [1, 1, 1, 1] })],
      timestamps := { maxSize := 10, collection := [1, 2, 3, 4] } }
    "Foo" 7 (by decide) (by decide) (by decide) (by decide) (by decide)
    (by decide)

/-- C5 witness: type "Bar" whose window is already all zeros and which is
absent from the census is pruned on the next tick. -/
theorem prune_iff_all_zero_example :
    lookupH (updateStats 3 [] 9
        { history := [("Bar", { maxSize := 3, collection := [0, 0, 0] })],
          timestamps := { maxSize := 3, collection := [1, 2, 3] } }).history
        "Bar"
      = none :=
  prune_iff_all_zero 3 [] 9
    { history := [("Bar", { maxSize := 3, collection := [0, 0, 0] })],
      timestamps := { maxSize := 3, collection := [1, 2, 3] } }
    "Bar" { maxSize := 3, collection := [0, 0, 0] } (by decide) (by decide)

/-- C6 witness: type "x" tracked with samples [2,1] and absent from the
census gets a zero appended and is retained with samples [2,1,0]. -/
theorem absence_implicit_zero_example :
    lookupH ((mergeGroups 3
        ({ history := [("x", { maxSize := 3, collection := [2, 1] })],
           timestamps := { maxSize := 3, collection := [4, 4] } } :
          Store).timestamps.collection.length
        [("x", { maxSize := 3, collection := [2, 1] })] [("y", 1)]).map
          (postZero ["y"])) "x"
      = some { maxSize := 3, collection := [2, 1, 0] } ∧
    lookupH (updateStats 3 [("y", 1)] 7
        { history := [("x", { maxSize := 3, collection := [2, 1] })],
          timestamps := { maxSize := 3, collection := [4, 4] } }).history "x"
      = some { maxSize := 3, collection := [2, 1, 0] } :=
  absence_implicit_zero 3 [("y", 1)] 7
    { history := [("x", { maxSize := 3, collection := [2, 1] })],
      timestamps := { maxSize := 3, collection := [4, 4] } }
    "x" { maxSize := 3, collection := [2, 1] } (by decide) (by decide)
    (by decide)

/-- C10 witness: after one tick with census group ("a", 2) the only tracked
history holds the non-zero sample 2, and the census grouping of two "a"
objects yields the positive count 2. -/
theorem no_all_zero_history_example :
    (∃ v ∈ (({ maxSize := 3, collection := [2] } : RingBuffer Nat)).collection,
      v ≠ 0) ∧
    0 < (("a", 2) : String × Nat).2 :=
  ⟨(no_all_zero_history 3 [("a", 2)] 7 (emptyStore 3) ["a", "a"]).1
      ("a", { maxSize := 3, collection := [2] }) (by decide),
   (no_all_zero_history 3 [("a", 2)] 7 (emptyStore 3) ["a", "a"]).2
      ("a", 2) (by decide)⟩
